import Mathlib

/-!
Verification of the MBTR descriptor pipeline and the sorted padded-matrix
descriptors of the `describe` package (`describe/descriptors/mbtr.py`,
`describe/descriptors/sortedcoulombmatrix.py`,
`describe/descriptors/sortedsinematrix.py`) against their natural-language
specification.

Modelling conventions:
* Python floats are modelled as exact real numbers (`ℝ`); particle
  positions, which only enter through ring operations and comparisons of
  squared quantities, are modelled as exact rationals (`ℚ`).
* `scipy.special.erf` is an external library function with no Mathlib
  counterpart; it is passed to the embedding as an abstract function
  parameter, exactly as the code treats it (a black-box elementwise map).
* The weighting function built by `create_extended_system`
  (`function = lambda x: np.exp(-scale*x)`) is likewise passed as an
  abstract parameter `w : ℝ → ℝ`; the code only evaluates it and compares
  the result with the configured cutoff, which is all the embedding does.
-/

namespace MBTR

/-! ## Grid settings (`get_k1_settings` / `get_k2_settings` / `get_k3_settings`,
mbtr.py lines 425-471) -/

/-- A resolved grid: the `{min, max, sigma, n}` dictionary returned by the
`get_kX_settings` methods.  `n` is kept as an integer, as the code coerces it
with `int(...)`. -/
structure GridSettings where
  gmin : ℝ
  gmax : ℝ
  sigma : ℝ
  n : ℤ

/-- `MBTR.decay_factor = math.sqrt(2)*3` (mbtr.py line 54). -/
noncomputable def decayFactor : ℝ := Real.sqrt 2 * 3

/-- `int(math.ceil((max_k-min_k)/sigma/4) + 1)`: the default grid-length
formula shared by all three `get_kX_settings` methods.  `math.ceil` already
returns an integer, so the outer `int(...)` is the identity. -/
noncomputable def defaultGridN (minK maxK sigma : ℝ) : ℤ :=
  ⌈(maxK - minK) / sigma / 4⌉ + 1

/-- `get_k1_settings` (mbtr.py lines 425-439).  `explicit` is
`self.grid["k1"]` when the constructor-supplied grid dictionary exists and
has a non-`None` `"k1"` entry, and `none` otherwise; `minZ`/`maxZ` are
`self.min_atomic_number`/`self.max_atomic_number`. -/
noncomputable def get_k1_settings (explicit : Option GridSettings)
    (minZ maxZ : ℕ) : GridSettings :=
  match explicit with
  | some g => g
  | none =>
    let sigma : ℝ := 1e-1
    let minK : ℝ := (minZ : ℝ) - decayFactor * sigma
    let maxK : ℝ := (maxZ : ℝ) + decayFactor * sigma
    ⟨minK, maxK, sigma, defaultGridN minK maxK sigma⟩

/-- `get_k2_settings` (mbtr.py lines 441-455). -/
noncomputable def get_k2_settings (explicit : Option GridSettings) : GridSettings :=
  match explicit with
  | some g => g
  | none =>
    let sigma : ℝ := (2 : ℝ) ^ (-7 : ℤ)
    let minK : ℝ := 0 - decayFactor * sigma
    let maxK : ℝ := 1 / 0.7 + decayFactor * sigma
    ⟨minK, maxK, sigma, defaultGridN minK maxK sigma⟩

/-- `get_k3_settings` (mbtr.py lines 457-471); `2**(-3.5)` is a real
exponentiation. -/
noncomputable def get_k3_settings (explicit : Option GridSettings) : GridSettings :=
  match explicit with
  | some g => g
  | none =>
    let sigma : ℝ := (2 : ℝ) ^ (-3.5 : ℝ)
    let minK : ℝ := -1.0 - decayFactor * sigma
    let maxK : ℝ := 1.0 + decayFactor * sigma
    ⟨minK, maxK, sigma, defaultGridN minK maxK sigma⟩

/-- The order-1 default grid as the spec words it: `sigma = 0.1`,
`margin = sqrt(2)*3*sigma`, `min = min(atomic_numbers) - margin`,
`max = max(atomic_numbers) + margin`, `n = ceil((max-min)/sigma/4) + 1`. -/
noncomputable def specK1Grid (minZ maxZ : ℕ) : GridSettings :=
  let sigma : ℝ := 0.1
  let margin : ℝ := Real.sqrt 2 * 3 * sigma
  ⟨(minZ : ℝ) - margin, (maxZ : ℝ) + margin, sigma,
    ⌈(((maxZ : ℝ) + margin) - ((minZ : ℝ) - margin)) / sigma / 4⌉ + 1⟩

/-- The order-2 default grid as the spec words it: `sigma = 2^-7`, range is
the inverse-distance domain `[0, 1/0.7]` inflated by the margin. -/
noncomputable def specK2Grid : GridSettings :=
  let sigma : ℝ := 1 / 128
  let margin : ℝ := Real.sqrt 2 * 3 * sigma
  ⟨0 - margin, 1 / 0.7 + margin, sigma,
    ⌈((1 / 0.7 + margin) - (0 - margin)) / sigma / 4⌉ + 1⟩

/-- The order-3 default grid as the spec words it: `sigma = 2^-3.5`, range is
the cosine domain `[-1, 1]` inflated by the margin. -/
noncomputable def specK3Grid : GridSettings :=
  let sigma : ℝ := (2 : ℝ) ^ ((-7 : ℝ) / 2)
  let margin : ℝ := Real.sqrt 2 * 3 * sigma
  ⟨-1 - margin, 1 + margin, sigma,
    ⌈((1 + margin) - (-1 - margin)) / sigma / 4⌉ + 1⟩

/-! ## Feature counts and flattened widths (`get_number_of_features`,
mbtr.py lines 473-500, and the tensor allocations in `K1`/`K2`/`K3` and
`create_with_grid`) -/

/-- Width of the flattened K1 block: `lil_matrix((1, n_elem*n))`
(mbtr.py line 777). -/
def k1Width (nElem n : ℕ) : ℕ := nElem * n

/-- Width of the flattened K2 block:
`lil_matrix((1, int(n_elem*(n_elem+1)/2*n)))` (mbtr.py lines 819-820).
`n_elem*(n_elem+1)` is even, so the Python float arithmetic is exact and the
natural-number division below loses nothing. -/
def k2Width (nElem n : ℕ) : ℕ := nElem * (nElem + 1) / 2 * n

/-- Width of the flattened K3 block:
`lil_matrix((1, int(n_elem*n_elem*(n_elem+1)/2*n)))` (mbtr.py lines 863-864). -/
def k3Width (nElem n : ℕ) : ℕ := nElem * nElem * (nElem + 1) / 2 * n

/-- Length of the flattened output assembled by `create_with_grid`
(mbtr.py lines 333-350): the per-order sparse tensors are concatenated, so
the total width is the sum of `tensor.shape[1]` over the requested orders.
`update()` (lines 179-196) guarantees `k ⊆ {1,2,3}`, so the requested order
set is modelled by three booleans; `n1 n2 n3` are the `n` values of the
resolved per-order grid settings. -/
def flattenedLength (has1 has2 has3 : Bool) (nElem n1 n2 n3 : ℕ) : ℕ :=
  (if has1 then k1Width nElem n1 else 0) +
    ((if has2 then k2Width nElem n2 else 0) +
      (if has3 then k3Width nElem n3 else 0))

/-- The exact rational value of the float sum accumulated by
`get_number_of_features` (mbtr.py lines 480-498).  The `0 in self.k` branch
(lines 483-486) is dead code: `update()` rejects any `k` outside `{1,2,3}`
(and `get_k0_settings` does not exist). -/
def get_number_of_features_exact (has1 has2 has3 : Bool) (nElem n1 n2 n3 : ℕ) : ℚ :=
  (if has1 then (nElem : ℚ) * n1 else 0) +
    ((if has2 then (nElem : ℚ) * (nElem + 1) / 2 * n2 else 0) +
      (if has3 then (nElem : ℚ) * nElem * (nElem + 1) / 2 * n3 else 0))

/-- `get_number_of_features` (mbtr.py lines 473-500): `int(n_features)`.
The accumulated value is non-negative, so Python's truncating `int()` is the
floor. -/
def get_number_of_features (has1 has2 has3 : Bool) (nElem n1 n2 n3 : ℕ) : ℤ :=
  ⌊get_number_of_features_exact has1 has2 has3 nElem n1 n2 n3⌋

/-- Dense (unflattened) K1 shape: `np.zeros((n_elem, n))` (mbtr.py line 779). -/
def k1DenseShape (nElem n : ℕ) : List ℕ := [nElem, n]

/-- Dense K2 shape: `np.zeros((self.n_elements, self.n_elements, n))`
(mbtr.py line 822). -/
def k2DenseShape (nElem n : ℕ) : List ℕ := [nElem, nElem, n]

/-- Dense K3 shape: `np.zeros((n_elem, n_elem, n_elem, n))`
(mbtr.py line 866). -/
def k3DenseShape (nElem n : ℕ) : List ℕ := [nElem, nElem, nElem, n]

/-- Total number of entries of the dense per-order arrays returned with
`flatten=False`: the sum over requested orders of the product of each dense
shape. -/
def denseShapesProduct (has1 has2 has3 : Bool) (nElem n1 n2 n3 : ℕ) : ℕ :=
  (if has1 then (k1DenseShape nElem n1).prod else 0) +
    ((if has2 then (k2DenseShape nElem n2).prod else 0) +
      (if has3 then (k3DenseShape nElem n3).prod else 0))

/-! ## Configuration validation and the per-call pipeline
(`update`, mbtr.py lines 175-261; `describe`/`initialize_scalars`,
lines 284-423) -/

/-- The Python exceptions raised by `update` and `initialize_scalars`.
`unknownElement z` is the `KeyError` of mbtr.py lines 395-400, whose message
interpolates the offending atomic number `z`. -/
inductive PyErr where
  | valueError (msg : String)
  | keyError (msg : String)
  | attributeError (msg : String)
  | unknownElement (z : ℕ)
deriving DecidableEq

/-- The state of a Python dictionary lookup: the key may be absent
(subscripting raises `KeyError`), present with value `None`, or present with
a real value. -/
inductive DEntry (α : Type) where
  | miss
  | pynone
  | val (a : α)
deriving DecidableEq

/-- One weighting dictionary (the value under `"k2"` or `"k3"`).
`function` is a `DEntry` because the code reads it both with `.get`
(line 203, missing ⇒ `None`) and with `[...]` (line 237, missing ⇒
`KeyError`); `scale`/`cutoff` are only ever read with `.get`. -/
structure WeightInfo where
  function : DEntry String
  scale : Option ℚ
  cutoff : Option ℚ
deriving DecidableEq

/-- The constructor's `weighting` argument restricted to the keys the code
reads (`"k2"` and `"k3"`). -/
structure Weighting where
  k2 : DEntry WeightInfo
  k3 : DEntry WeightInfo
deriving DecidableEq

/-- The validated requested-order set.  `update` (mbtr.py lines 179-196)
raises unless `k` is a set-like collection with `k ⊆ {1,2,3}`, so a
post-validation order set is three booleans. -/
structure KSet where
  has1 : Bool
  has2 : Bool
  has3 : Bool
deriving DecidableEq

/-- `weight_info.get("function")`: Python `.get` collapses a missing key and
a `None` value to `None`. -/
def DEntry.getOpt : DEntry String → Option String
  | .miss => none
  | .pynone => none
  | .val s => some s

/-- The per-entry weighting check of mbtr.py lines 200-221, for one `k > 1`
in the requested order set, given that `self.weighting` is not `None`:
subscript the weighting dictionary (`KeyError` if the `"kX"` key is absent),
call `.get("function")` on the value (`AttributeError` if it is `None`),
reject unknown functions, and for `"exponential"` require `"cutoff"` then
`"scale"` (iterated in that order, line 213). -/
def checkWeightEntry (e : DEntry WeightInfo) (kname : String) :
    Except PyErr Unit :=
  match e with
  | .miss => .error (.keyError kname)
  | .pynone => .error (.attributeError "NoneType has no attribute get")
  | .val info =>
    match info.function.getOpt with
    | some "exponential" =>
      if info.cutoff = none then
        .error (.valueError "Missing value for cutoff in the weighting specification")
      else if info.scale = none then
        .error (.valueError "Missing value for scale in the weighting specification")
      else .ok ()
    | some "unity" => .ok ()
    | _ => .error (.valueError "Unknown weighting function specified")

/-- The message of the periodic-weighting `ValueError`
(mbtr.py lines 227-231). -/
def periodicMsg : String :=
  "Periodic systems will need to have a weighting function defined in the weighting dictionary of the MBTR constructor when requesting k > 1"

/-- The per-entry periodic check of mbtr.py lines 226-239, for one `k > 1`
in the requested order set: raise if `self.weighting` is `None`, subscript
it (`KeyError` if absent), raise if the entry is `None`, subscript
`"function"` (`KeyError` if absent), and raise if the function is `None` or
`"unity"`. -/
def checkPeriodicEntry (w : Option Weighting) (sel : Weighting → DEntry WeightInfo)
    (kname : String) : Except PyErr Unit :=
  match w with
  | none => .error (.valueError periodicMsg)
  | some wt =>
    match sel wt with
    | .miss => .error (.keyError kname)
    | .pynone => .error (.valueError periodicMsg)
    | .val info =>
      match info.function with
      | .miss => .error (.keyError "function")
      | .pynone => .error (.valueError periodicMsg)
      | .val s => if s = "unity" then .error (.valueError periodicMsg) else .ok ()

/-- Sequencing of two checks: Python runs the second statement only when the
first did not raise. -/
def seqE (a b : Except PyErr Unit) : Except PyErr Unit :=
  match a with
  | .error e => .error e
  | .ok _ => b

/-- The weighting-relevant part of `update` (mbtr.py lines 198-239), run
after the order-set validation: first the general weighting check (skipped
entirely when `self.weighting is None`), then, when `periodic`, the
periodic-weighting check.  Both iterate over the requested orders `k > 1`
in ascending order. -/
def updateCheck (k : KSet) (periodic : Bool) (weighting : Option Weighting) :
    Except PyErr Unit :=
  seqE
    (match weighting with
     | some wt =>
       seqE (if k.has2 then checkWeightEntry wt.k2 "k2" else .ok ())
         (if k.has3 then checkWeightEntry wt.k3 "k3" else .ok ())
     | none => .ok ())
    (if periodic then
       seqE (if k.has2 then checkPeriodicEntry weighting Weighting.k2 "k2" else .ok ())
         (if k.has3 then checkPeriodicEntry weighting Weighting.k3 "k3" else .ok ())
     else .ok ())

/-- The unknown-element check of `initialize_scalars` (mbtr.py lines
390-401): iterate over the distinct atomic numbers present in the system and
raise a `KeyError` naming the first one that is not a key of
`atomic_number_to_index` (whose key set is the declared `atomic_numbers`). -/
def elementCheck (declared sysNumbers : List ℕ) : Except PyErr Unit :=
  match sysNumbers.dedup.find? (fun z => decide (z ∉ declared)) with
  | some z => .error (.unknownElement z)
  | none => .ok ()

/-- The aggregation results cached on the instance
(`self._k1_geoms`, ..., mbtr.py lines 165-170): one abstract value per
order. -/
structure InitState (τ : Type) where
  k1 : Option τ
  k2 : Option τ
  k3 : Option τ

/-- `initialize_scalars` (mbtr.py lines 371-423) followed by nothing else:
the per-call entry point `describe` first calls this and only then assembles
the output.  Lines 375-385 reset every cached field before anything is
computed, so the `prior` cache state from any earlier call is discarded
unconditionally; `update()` (line 387) re-validates the configuration, the
unknown-element check (lines 390-401) follows, and only then are the
geometry/weight aggregations invoked.  The aggregation collaborator is the
abstract function `agg order expanded`, where `expanded` records whether the
order works on the periodically extended system (`create_extended_system`
is applied exactly when `self.periodic`, lines 406-419). -/
def initialize_scalars {τ : Type} (agg : ℕ → Bool → τ) (k : KSet)
    (periodic : Bool) (weighting : Option Weighting)
    (declared sysNumbers : List ℕ) (_prior : InitState τ) :
    Except PyErr (InitState τ) :=
  match updateCheck k periodic weighting with
  | .error e => .error e
  | .ok _ =>
    match elementCheck declared sysNumbers with
    | .error e => .error e
    | .ok _ =>
      .ok ⟨if k.has1 then some (agg 1 false) else none,
           if k.has2 then some (agg 2 periodic) else none,
           if k.has3 then some (agg 3 periodic) else none⟩

/-- The claim's description of a defective weighting specification for one
order `k > 1`: the spec is absent (the whole `weighting` argument is `None`
or the `"kX"` key is missing), is `None`, or names the function
`"unity"`. -/
def badWeightEntry (weighting : Option Weighting)
    (sel : Weighting → DEntry WeightInfo) : Prop :=
  weighting = none ∨
    ∃ wt, weighting = some wt ∧
      (sel wt = DEntry.miss ∨ sel wt = DEntry.pynone ∨
        ∃ info, sel wt = DEntry.val info ∧ info.function = DEntry.val "unity")

/-! ## The Gaussian broadener (`gaussian_sum`, mbtr.py lines 610-646) -/

open scoped Real in
/-- `gaussian_sum(centers, weights, settings)` (mbtr.py lines 610-646) for
the parallel arrays modelled as a list `cw` of (center, weight) pairs.
`erf` is scipy's elementwise error function, taken as an abstract parameter.
The boundary points are `np.linspace(start-dx/2, stop+dx/2, n+1)`, whose
step is the span divided by `(n+1)-1 = n`; when `normalize_gaussians` is
false the cumulative sums are divided by `1/(sigma*sqrt(2*pi))` before the
discrete derivative is taken. -/
noncomputable def gaussian_sum (erf : ℝ → ℝ) (normalizeGaussians : Bool)
    (cw : List (ℝ × ℝ)) (start stop sigma : ℝ) (n : ℕ) : List ℝ :=
  let dx : ℝ := (stop - start) / ((n : ℝ) - 1)
  let x : ℕ → ℝ := fun i =>
    (start - dx / 2) + (i : ℝ) * (((stop + dx / 2) - (start - dx / 2)) / (n : ℝ))
  let f : ℕ → ℝ := fun i =>
    let s := (cw.map (fun p => p.2 * (1 / 2) * (1 + erf ((x i - p.1) / (sigma * Real.sqrt 2))))).sum
    if normalizeGaussians then s else s / (1 / (sigma * Real.sqrt (2 * π)))
  (List.range n).map (fun i => (f (i + 1) - f i) / dx)

open scoped Real in
/-- The broadener as the spec words it: `n+1` boundary points spaced by
`dx = (max-min)/(n-1)` starting at `min - dx/2`; at each boundary the
weighted sum over all (value, weight) pairs of
`weight * 1/2 * (1 + erf((boundary-value)/(sigma*sqrt 2)))`; consecutive
differences divided by `dx`; and, when `normalize_gaussians` is false, the
result additionally divided by `1/(sigma*sqrt(2*pi))`. -/
noncomputable def gaussian_sum_spec (erf : ℝ → ℝ) (normalizeGaussians : Bool)
    (cw : List (ℝ × ℝ)) (start stop sigma : ℝ) (n : ℕ) : List ℝ :=
  let dx : ℝ := (stop - start) / ((n : ℝ) - 1)
  let b : ℕ → ℝ := fun i => (start - dx / 2) + (i : ℝ) * dx
  let F : ℕ → ℝ := fun i =>
    (cw.map (fun p => p.2 * (1 / 2) * (1 + erf ((b i - p.1) / (sigma * Real.sqrt 2))))).sum
  (List.range n).map (fun i =>
    let pdf := (F (i + 1) - F i) / dx
    if normalizeGaussians then pdf else pdf / (1 / (sigma * Real.sqrt (2 * π))))

/-! ## The periodic expander (`create_extended_system`, mbtr.py lines
502-608) -/

/-- A Cartesian position (exact model of a 3-component float vector). -/
abbrev Vec3 : Type := ℚ × ℚ × ℚ

/-- Componentwise subtraction. -/
def vsub (a b : Vec3) : Vec3 := (a.1 - b.1, a.2.1 - b.2.1, a.2.2 - b.2.2)

/-- Squared Euclidean norm. -/
def sqNorm (v : Vec3) : ℚ := v.1 * v.1 + v.2.1 * v.2.1 + v.2.2 * v.2.2

/-- Squared Euclidean distance. -/
def sqDist (a b : Vec3) : ℚ := sqNorm (vsub a b)

/-- The 3×3 cell-vector matrix, one cell vector per row (the rows of
`primitive_system.get_cell()`). -/
structure Cell where
  r0 : Vec3
  r1 : Vec3
  r2 : Vec3

/-- Row `i` of the cell matrix. -/
def Cell.row (c : Cell) : Fin 3 → Vec3
  | 0 => c.r0
  | 1 => c.r1
  | 2 => c.r2

/-- `np.linalg.norm(cell, axis=1)[i]`: the Euclidean length of cell vector
`i` (mbtr.py line 526). -/
noncomputable def rowLength (c : Cell) (i : Fin 3) : ℝ :=
  Real.sqrt ((sqNorm (c.row i) : ℝ))

/-- The distance doubling for terms `k > 2` (mbtr.py lines 545-546 and
582-583): "for terms k>2 we double the distances to take into account the
loop that is required". -/
def dblDist (order : ℕ) (x : ℝ) : ℝ := if 2 < order then 2 * x else x

/-- The per-axis copy-count search of `create_extended_system` (mbtr.py
lines 536-551): starting from `n_copies = 0`, the `while` loop returns the
first (i.e. least) count whose weight falls below the cutoff (when no such
count exists the loop never terminates; `sInf` of the empty set is 0, and
every theorem below instantiates the search at a weighting and cutoff for
which the set is nonempty).  The loop body
computes `distance = n_copies * cell_vector_lengths[0]` (line 541) -- the
length of cell vector 0, whatever the axis being bounded; the enumerated
`axis_length` is never used.  `w` is the weighting function the code builds
from the weighting spec (`lambda x: np.exp(-scale*x)` for `"exponential"`,
lines 532-534). -/
noncomputable def nCopiesAxis (w : ℝ → ℝ) (cutoff : ℝ) (order : ℕ)
    (cell : Cell) (_axis : Fin 3) : ℕ :=
  sInf {c : ℕ | w (dblDist order ((c : ℝ) * rowLength cell 0)) < cutoff}

/-- The copy-count bound as the spec words it: for each of the 3 cell-vector
directions independently, the smallest non-negative integer `c` such that
the weighting function evaluated at `c * |cell_vector|` -- that direction's
own cell-vector length, doubled for order 3 -- falls below the cutoff. -/
noncomputable def nCopiesAxisSpec (w : ℝ → ℝ) (cutoff : ℝ) (order : ℕ)
    (cell : Cell) (axis : Fin 3) : ℕ :=
  sInf {c : ℕ | w (dblDist order ((c : ℝ) * rowLength cell axis)) < cutoff}

/-- The integers `-c, -c+1, ..., c` in the order `range(-c, c+1)` iterates
them. -/
def shiftRange (c : ℕ) : List ℤ :=
  (List.range (2 * c + 1)).map (fun t => (t : ℤ) - (c : ℤ))

/-- The shift triples `(i, j, k)` enumerated by the three nested loops of
mbtr.py lines 562-566, the origin excluded. -/
def shiftTriples (cx cy cz : ℕ) : List (ℤ × ℤ × ℤ) :=
  ((shiftRange cx).flatMap (fun i =>
    (shiftRange cy).flatMap (fun j =>
      (shiftRange cz).map (fun k => (i, j, k))))).filter
    (fun s => decide (s ≠ (0, 0, 0)))

/-- Scalar multiple of a cell vector. -/
def zsmul (z : ℤ) (v : Vec3) : Vec3 := ((z : ℚ) * v.1, (z : ℚ) * v.2.1, (z : ℚ) * v.2.2)

/-- Componentwise addition. -/
def vadd (a b : Vec3) : Vec3 := (a.1 + b.1, a.2.1 + b.2.1, a.2.2 + b.2.2)

/-- The Cartesian displacement of shift `(i,j,k)`:
`pos_copy = np.array(relative_pos) - i*a - j*b - k*c` followed by
`np.dot(pos_copy, cell)` (mbtr.py lines 572-573) shifts every Cartesian
position by `-(i*row0 + j*row1 + k*row2)`.

Modelled from the spec: `System.get_scaled_positions` lives in
`describe.core` (not under `src/`); per spec §6 the structure exposes
fractional positions and the cell inverse with `scaled · cell = cartesian`,
so the scaled-position round trip is exact. -/
def shiftVec (cell : Cell) (s : ℤ × ℤ × ℤ) : Vec3 :=
  vadd (zsmul s.1 cell.r0) (vadd (zsmul s.2.1 cell.r1) (zsmul s.2.2 cell.r2))

open Classical in
/-- `create_extended_system(primitive_system, term_number)` (mbtr.py lines
502-608) acting on the particle list (atomic number, Cartesian position).
The copy counts per axis come from `nCopiesAxis`; for every non-origin shift
triple the whole cell is displaced, and a displaced atom is kept exactly
when its (order-doubled) distance to at least one atom of the input system
has weight `>= cutoff` (lines 572-596, `weight_mask = weights >= cutoff`,
`np.any(..., axis=1)`).  The result is the input atoms followed by the kept
image atoms in loop order (lines 555-599); the returned system has
periodicity disabled but the same cell. -/
noncomputable def create_extended_system (w : ℝ → ℝ) (cutoff : ℝ) (order : ℕ)
    (cell : Cell) (atoms : List (ℕ × Vec3)) : List (ℕ × Vec3) :=
  let cx := nCopiesAxis w cutoff order cell 0
  let cy := nCopiesAxis w cutoff order cell 1
  let cz := nCopiesAxis w cutoff order cell 2
  atoms ++ (shiftTriples cx cy cz).flatMap (fun s =>
    (atoms.map (fun a => (a.1, vsub a.2 (shiftVec cell s)))).filter
      (fun a => decide (∃ q ∈ atoms,
        cutoff ≤ w (dblDist order (Real.sqrt ((sqDist a.2 q.2 : ℝ)))))))

/-- Computable companion of `create_extended_system` used to evaluate it at concrete
inputs: the copy counts are supplied directly and the acceptance test is a
boolean predicate on the squared distance.  `create_extended_system_eq_q` below proves
it coincides with `create_extended_system` whenever the inputs agree. -/
def create_extended_system_q (accept : ℚ → Bool) (cx cy cz : ℕ) (cell : Cell)
    (atoms : List (ℕ × Vec3)) : List (ℕ × Vec3) :=
  atoms ++ (shiftTriples cx cy cz).flatMap (fun s =>
    (atoms.map (fun a => (a.1, vsub a.2 (shiftVec cell s)))).filter
      (fun a => atoms.any (fun q => accept (sqDist a.2 q.2))))

/-- A concrete monotonically decreasing weighting function,
`w(x) = 1/(1+x²)`, used to evaluate the copy-count search and the expansion
at concrete inputs.  Like the code's exponential `exp(-scale*x)` it is
strictly decreasing on the non-negative distances at which the code
evaluates it; `create_extended_system` only ever calls the weighting
function and compares the result against the cutoff. -/
noncomputable def wInvSq : ℝ → ℝ := fun x => 1 / (1 + x ^ 2)

/-- A cell whose first vector has length 1 while the second and third have
length 3. -/
def cellC1 : Cell := ⟨(1, 0, 0), (0, 3, 0), (0, 0, 3)⟩

/-- A cubic cell of side 5. -/
def cell5 : Cell := ⟨(5, 0, 0), (0, 5, 0), (0, 0, 5)⟩

/-- Two atoms on the x axis at 0 and 3. -/
def atoms2 : List (ℕ × Vec3) := [(1, (0, 0, 0)), (1, (3, 0, 0))]

/-- The acceptance predicate on squared distances corresponding to
weighting `wInvSq` and cutoff `1/11`: `1/(1+q) ≥ 1/11 ↔ q ≤ 10`. -/
def acceptTen : ℚ → Bool := fun q => decide (q ≤ 10)

/-! ## Flattened tensor layout (`K2`/`K3`, mbtr.py lines 799-886) -/

/-- Python's ascending comparison on 2-tuples (lexicographic), used by
`sorted(k2_geoms.keys())`. -/
def pairLe (a b : ℕ × ℕ) : Prop := a.1 < b.1 ∨ (a.1 = b.1 ∧ a.2 ≤ b.2)

instance : DecidableRel pairLe := fun a b => by unfold pairLe; infer_instance

/-- Python's ascending comparison on 3-tuples (lexicographic), used by
`sorted(k3_geoms.keys())`. -/
def tripLe (a b : ℕ × ℕ × ℕ) : Prop := a.1 < b.1 ∨ (a.1 = b.1 ∧ pairLe a.2 b.2)

instance : DecidableRel tripLe := fun a b => by unfold tripLe; infer_instance

instance : IsTrans (ℕ × ℕ) pairLe :=
  ⟨by rintro ⟨a1, a2⟩ ⟨b1, b2⟩ ⟨c1, c2⟩ hab hbc; unfold pairLe at *; omega⟩

instance : IsTotal (ℕ × ℕ) pairLe :=
  ⟨by rintro ⟨a1, a2⟩ ⟨b1, b2⟩; unfold pairLe; omega⟩

instance : IsAntisymm (ℕ × ℕ) pairLe :=
  ⟨by
    rintro ⟨a1, a2⟩ ⟨b1, b2⟩ h1 h2
    unfold pairLe at *
    obtain ⟨rfl, rfl⟩ : a1 = b1 ∧ a2 = b2 := by omega
    rfl⟩

instance : IsTrans (ℕ × ℕ × ℕ) tripLe :=
  ⟨by
    rintro ⟨a1, a2, a3⟩ ⟨b1, b2, b3⟩ ⟨c1, c2, c3⟩ hab hbc
    simp only [tripLe, pairLe] at *
    omega⟩

instance : IsTotal (ℕ × ℕ × ℕ) tripLe :=
  ⟨by rintro ⟨a1, a2, a3⟩ ⟨b1, b2, b3⟩; simp only [tripLe, pairLe]; omega⟩

instance : IsAntisymm (ℕ × ℕ × ℕ) tripLe :=
  ⟨by
    rintro ⟨a1, a2, a3⟩ ⟨b1, b2, b3⟩ h1 h2
    simp only [tripLe, pairLe] at *
    obtain ⟨rfl, rfl, rfl⟩ : a1 = b1 ∧ a2 = b2 ∧ a3 = b3 := by omega
    rfl⟩

/-- The numpy slice assignment `v[0, start:start+len(seq)] = seq` on a row
vector held as a list. -/
def writeBlock (v : List ℚ) (start : ℕ) (seq : List ℚ) : List ℚ :=
  v.take start ++ seq ++ v.drop (start + seq.length)

/-- The write loop shared by `K2` and `K3` in flattened mode
(mbtr.py lines 824-837 and 868-882): the `m`-th sequence of `seqs` (the
broadened data of the `m`-th key in sorted order) is written at columns
`[m*n, m*n + len(seq))`; `m` starts at `start`. -/
def writeSeq (n : ℕ) (v : List ℚ) (start : ℕ) : List (List ℚ) → List ℚ
  | [] => v
  | s :: rest => writeSeq n (writeBlock v (start * n) s) (start + 1) rest

/-- `K2(settings)` in flattened mode (mbtr.py lines 799-841): allocate a row
of width `int(n_elem*(n_elem+1)/2*n)`, iterate `for m, key in
enumerate(sorted(k2_geoms.keys()))`, broaden each key's geometry/weight
lists and write the result at columns `[m*n, (m+1)*n)`.  The broadening
(`self.gaussian_sum`) is the abstract parameter `broaden`; `comb` is the
combination map `k2_geoms`/`k2_weights` as an association list
`key ↦ (geoms, weights)`. -/
def K2flat (broaden : List ℚ → List ℚ → List ℚ) (nElem n : ℕ)
    (comb : List ((ℕ × ℕ) × (List ℚ × List ℚ))) : List ℚ :=
  let keys := List.insertionSort pairLe (comb.map Prod.fst)
  writeSeq n (List.replicate (k2Width nElem n) 0) 0
    (keys.map (fun key =>
      let d := (comb.lookup key).getD ([], [])
      broaden d.1 d.2))

/-- `K3(settings)` in flattened mode (mbtr.py lines 843-886), exactly as
`K2flat` but over 3-tuples and width `int(n_elem*n_elem*(n_elem+1)/2*n)`. -/
def K3flat (broaden : List ℚ → List ℚ → List ℚ) (nElem n : ℕ)
    (comb : List ((ℕ × ℕ × ℕ) × (List ℚ × List ℚ))) : List ℚ :=
  let keys := List.insertionSort tripLe (comb.map Prod.fst)
  writeSeq n (List.replicate (k3Width nElem n) 0) 0
    (keys.map (fun key =>
      let d := (comb.lookup key).getD ([], [])
      broaden d.1 d.2))

/-- All order-2 element-index combinations `(i, j)`, `i ≤ j < nElem`, in
ascending lexicographic order; there are `nElem*(nElem+1)/2` of them. -/
def allPairs (nElem : ℕ) : List (ℕ × ℕ) :=
  (List.range nElem).flatMap (fun i =>
    ((List.range nElem).filter (fun j => decide (i ≤ j))).map (fun j => (i, j)))

/-- All order-3 element-index combinations in ascending lexicographic order.

Modelled from the spec: the order-3 key space of the geometry-aggregation
collaborator (`CMBTRWrapper`, external to `src/`) is fixed by the spec's
feature count `n_elements*n_elements*(n_elements+1)/2` and its note that the
enumeration is "asymmetric in `i` vs `(j,k)` because only the leading index
is unconstrained relative to the trailing pair": triples `(i, j, k)` with
`i < nElem` free and `j ≤ k < nElem`. -/
def allTriples (nElem : ℕ) : List (ℕ × ℕ × ℕ) :=
  (List.range nElem).flatMap (fun i =>
    (allPairs nElem).map (fun p => (i, p.1, p.2)))

/-- Rank-indexed block writer for the spec-side layout: the `m`-th entry of
the list, when present, is written at columns `[m*n, ...)`; absent entries
advance the rank without writing. -/
def writeSeqOpt (n : ℕ) (v : List ℚ) (start : ℕ) : List (Option (List ℚ)) → List ℚ
  | [] => v
  | none :: rest => writeSeqOpt n v (start + 1) rest
  | some s :: rest => writeSeqOpt n (writeBlock v (start * n) s) (start + 1) rest

/-- The order-2 flattened layout as the claim words it: combination `m`'s
broadened sequence occupies columns `[m*n, (m+1)*n)` where `m` is the
combination's rank under ascending lexicographic order over ALL
non-decreasing index pairs, whether or not the other combinations are
present in the map. -/
def K2flatSpec (broaden : List ℚ → List ℚ → List ℚ) (nElem n : ℕ)
    (comb : List ((ℕ × ℕ) × (List ℚ × List ℚ))) : List ℚ :=
  writeSeqOpt n (List.replicate (k2Width nElem n) 0) 0
    ((allPairs nElem).map (fun key =>
      (comb.lookup key).map (fun d => broaden d.1 d.2)))

/-- The order-3 flattened layout as the claim words it (see `K2flatSpec`). -/
def K3flatSpec (broaden : List ℚ → List ℚ → List ℚ) (nElem n : ℕ)
    (comb : List ((ℕ × ℕ × ℕ) × (List ℚ × List ℚ))) : List ℚ :=
  writeSeqOpt n (List.replicate (k3Width nElem n) 0) 0
    ((allTriples nElem).map (fun key =>
      (comb.lookup key).map (fun d => broaden d.1 d.2)))

/-! ## Sorted padded interaction matrices
(`sortedcoulombmatrix.py`, `sortedsinematrix.py`) -/

/-- `np.linalg.norm(cmat, axis=1)[i]`: the Euclidean norm of row `i`. -/
noncomputable def rowNormF {m : ℕ} (M : Fin m → Fin m → ℝ) (i : Fin m) : ℝ :=
  Real.sqrt (∑ j, (M i j) ^ 2)

open Classical in
/-- `sorted_indices = np.argsort(norms, axis=0)[::-1]`
(sortedcoulombmatrix.py lines 62-63): a permutation of the row indices
arranged so that the row norms are descending (argsort ascending, then
reversed). -/
noncomputable def sortedIndices {m : ℕ} (M : Fin m → Fin m → ℝ) : List (Fin m) :=
  (List.insertionSort (fun a b => rowNormF M a ≤ rowNormF M b)
    (List.finRange m)).reverse

/-- The sorting permutation as a function: `sortIdx M i` is the `i`-th entry
of `sortedIndices M`. -/
noncomputable def sortIdx {m : ℕ} (M : Fin m → Fin m → ℝ) (i : Fin m) : Fin m :=
  (sortedIndices M).get ⟨i, by
    simp [sortedIndices, (List.perm_insertionSort _ _).length_eq]⟩

/-- `cmat = cmat[sorted_indices]; cmat = cmat[:, sorted_indices]` followed
by zero padding to `n_atoms_max × n_atoms_max`
(sortedcoulombmatrix.py lines 64-70): entry `(i, j)` of the result is entry
`(sorted_indices[i], sorted_indices[j])` of the input when both indices fall
inside the original matrix, and `0` otherwise. -/
noncomputable def sortAndPad {m : ℕ} (nmax : ℕ) (M : Fin m → Fin m → ℝ) :
    Fin nmax → Fin nmax → ℝ := fun i j =>
  if h : (i : ℕ) < m ∧ (j : ℕ) < m then M (sortIdx M ⟨i, h.1⟩) (sortIdx M ⟨j, h.2⟩)
  else 0

/-- The unsorted Coulomb matrix (sortedcoulombmatrix.py lines 51-58):
`qiqj*idmat` off the diagonal and `0.5 * q ** 2.4` on it.  `q` is
`system.charges` and `idmat` is `system.inverse_distance_matrix`, both
read-only inputs from the structure collaborator. -/
noncomputable def coulombBase {m : ℕ} (q : Fin m → ℝ) (idmat : Fin m → Fin m → ℝ) :
    Fin m → Fin m → ℝ := fun i j =>
  if i = j then 0.5 * (q i) ^ (2.4 : ℝ) else q i * q j * idmat i j

/-- `SortedCoulombMatrix.coulomb_matrix(system)`
(sortedcoulombmatrix.py lines 48-72). -/
noncomputable def coulomb_matrix {m : ℕ} (nmax : ℕ) (q : Fin m → ℝ)
    (idmat : Fin m → Fin m → ℝ) : Fin nmax → Fin nmax → ℝ :=
  sortAndPad nmax (coulombBase q idmat)

open scoped Real in
/-- `phi` of `SortedSineMatrix.sine_matrix` (sortedsinematrix.py lines
62-63): `np.linalg.norm(np.dot(np.sin(pi * np.dot(diff_tensor, B_inv))**2,
B), axis=2)`.  `B` is the cell matrix, `Binv` its precomputed inverse and
`D` the displacement tensor, all inputs from the structure collaborator. -/
noncomputable def sinePhi {m : ℕ} (B Binv : Fin 3 → Fin 3 → ℝ)
    (D : Fin m → Fin m → Fin 3 → ℝ) : Fin m → Fin m → ℝ := fun i j =>
  Real.sqrt (∑ k, (∑ l, (Real.sin (π * ∑ t, D i j t * Binv t l)) ^ 2 * B l k) ^ 2)

/-- The unsorted Sine matrix (sortedsinematrix.py lines 54-76):
`qiqj * reciprocal(phi)` off the diagonal and `0.5 * q ** 2.4` on it. -/
noncomputable def sineBase {m : ℕ} (q : Fin m → ℝ) (B Binv : Fin 3 → Fin 3 → ℝ)
    (D : Fin m → Fin m → Fin 3 → ℝ) : Fin m → Fin m → ℝ := fun i j =>
  if i = j then 0.5 * (q i) ^ (2.4 : ℝ) else q i * q j * (1 / sinePhi B Binv D i j)

/-- `SortedSineMatrix.sine_matrix(system)` (sortedsinematrix.py lines
51-90). -/
noncomputable def sine_matrix {m : ℕ} (nmax : ℕ) (q : Fin m → ℝ)
    (B Binv : Fin 3 → Fin 3 → ℝ) (D : Fin m → Fin m → Fin 3 → ℝ) :
    Fin nmax → Fin nmax → ℝ :=
  sortAndPad nmax (sineBase q B Binv D)

/-- `.flatten()` of an `N×N` array: row-major flattening
(sortedcoulombmatrix.py line 45, sortedsinematrix.py line 48). -/
noncomputable def flattenMat {N : ℕ} (M : Fin N → Fin N → ℝ) : List ℝ :=
  (List.finRange N).flatMap (fun i => (List.finRange N).map (fun j => M i j))

/-- `get_number_of_features` of both padded-matrix descriptors:
`int(self.n_atoms_max**2)` (sortedcoulombmatrix.py line 81,
sortedsinematrix.py line 99). -/
def matNumberOfFeatures (nmax : ℕ) : ℕ := nmax ^ 2

/-! ## Helper lemmas -/

/-- Casting an exact halved product to `ℚ`. -/
theorem cast_half_mul (a n : ℕ) (h : 2 ∣ a) :
    ((a / 2 * n : ℕ) : ℚ) = (a : ℚ) / 2 * n := by
  obtain ⟨k, rfl⟩ := h
  rw [Nat.mul_div_cancel_left k (by norm_num)]
  push_cast
  ring

/-- The least element of a set of naturals. -/
theorem natSInf_eq {S : Set ℕ} {k : ℕ} (hk : k ∈ S)
    (hmin : ∀ m, m < k → m ∉ S) : sInf S = k :=
  le_antisymm (Nat.sInf_le hk)
    (not_lt.mp fun hlt => hmin _ hlt (Nat.sInf_mem ⟨k, hk⟩))

/-- The squared norm is non-negative. -/
theorem sqNorm_nonneg (v : Vec3) : 0 ≤ sqNorm v := by
  unfold sqNorm
  nlinarith [mul_self_nonneg v.1, mul_self_nonneg v.2.1, mul_self_nonneg v.2.2]

/-- The squared distance is non-negative. -/
theorem sqDist_nonneg (a b : Vec3) : 0 ≤ sqDist a b := sqNorm_nonneg _

/-- `create_extended_system` agrees with its computable companion whenever the copy
counts agree and the boolean acceptance predicate matches the weight-cutoff
test on squared distances. -/
theorem create_extended_system_eq_q (w : ℝ → ℝ) (cutoff : ℝ) (order : ℕ) (cell : Cell)
    (atoms : List (ℕ × Vec3)) (accept : ℚ → Bool) (cx cy cz : ℕ)
    (h0 : nCopiesAxis w cutoff order cell 0 = cx)
    (h1 : nCopiesAxis w cutoff order cell 1 = cy)
    (h2 : nCopiesAxis w cutoff order cell 2 = cz)
    (hacc : ∀ q : ℚ, 0 ≤ q →
      (cutoff ≤ w (dblDist order (Real.sqrt ((q : ℝ)))) ↔ accept q = true)) :
    create_extended_system w cutoff order cell atoms =
      create_extended_system_q accept cx cy cz cell atoms := by
  unfold create_extended_system create_extended_system_q
  rw [h0, h1, h2]
  dsimp only
  congr 1
  congr 1
  funext s
  refine List.filter_congr fun a _ => ?_
  rw [Bool.eq_iff_iff, decide_eq_true_iff, List.any_eq_true]
  constructor
  · rintro ⟨q, hq, hw⟩
    exact ⟨q, hq, (hacc _ (sqDist_nonneg _ _)).mp hw⟩
  · rintro ⟨q, hq, hw⟩
    exact ⟨q, hq, (hacc _ (sqDist_nonneg _ _)).mpr hw⟩

/-- The copy-count search for `wInvSq`, cutoff `1/11` and the cubic cell of
side 5 returns 1 on every axis. -/
theorem nCopiesAxis_cell5 (axis : Fin 3) :
    nCopiesAxis wInvSq (1 / 11) 2 cell5 axis = 1 := by
  have hlen : rowLength cell5 0 = 5 := by
    have h9 : ((sqNorm (cell5.row 0) : ℚ) : ℝ) = 25 := by
      norm_num [Cell.row, cell5, sqNorm]
    rw [rowLength, h9, show (25 : ℝ) = 5 ^ 2 by norm_num,
      Real.sqrt_sq (by norm_num : (0 : ℝ) ≤ 5)]
  unfold nCopiesAxis
  apply natSInf_eq
  · show wInvSq (dblDist 2 ((1 : ℕ) * rowLength cell5 0)) < 1 / 11
    rw [hlen]
    norm_num [wInvSq, dblDist]
  · intro m hm
    interval_cases m
    show ¬ wInvSq (dblDist 2 ((0 : ℕ) * rowLength cell5 0)) < 1 / 11
    norm_num [wInvSq, dblDist]

/-- The weight-cutoff test for `wInvSq` and cutoff `1/11` on a squared
distance `q` is `q ≤ 10`. -/
theorem acceptTen_spec (q : ℚ) (hq : 0 ≤ q) :
    ((1 : ℝ) / 11 ≤ wInvSq (dblDist 2 (Real.sqrt ((q : ℝ)))) ↔
      acceptTen q = true) := by
  have hq' : (0 : ℝ) ≤ (q : ℝ) := by exact_mod_cast hq
  rw [acceptTen, decide_eq_true_iff, dblDist, if_neg (by norm_num), wInvSq,
    Real.sq_sqrt hq',
    one_div_le_one_div (by norm_num : (0 : ℝ) < 11) (by linarith : (0 : ℝ) < 1 + q)]
  constructor
  · intro h
    have : (q : ℝ) ≤ 10 := by linarith
    exact_mod_cast this
  · intro h
    have : (q : ℝ) ≤ 10 := by exact_mod_cast h
    linarith

/-! ## Claim theorems -/

/-- C8: when no explicit grid is supplied for an order, the resolved default
grid is exactly: order 1 — `sigma = 0.1`, `min/max` the declared
atomic-number range inflated by `sqrt(2)*3*sigma`; order 2 — `sigma = 2^-7`,
range `[0, 1/0.7]` inflated by the margin; order 3 — `sigma = 2^-3.5`,
range `[-1, 1]` inflated by the margin; in every case
`n = ceil((max-min)/sigma/4) + 1`. -/
theorem C8_default_grids (minZ maxZ : ℕ) :
    get_k1_settings none minZ maxZ = specK1Grid minZ maxZ ∧
    get_k2_settings none = specK2Grid ∧
    get_k3_settings none = specK3Grid := by
  have hσ2 : ((2 : ℝ) ^ (-7 : ℤ)) = 1 / 128 := by norm_num
  have hσ3 : ((2 : ℝ) ^ (-3.5 : ℝ)) = (2 : ℝ) ^ ((-7 : ℝ) / 2) := by norm_num
  refine ⟨?_, ?_, ?_⟩
  · simp only [get_k1_settings, specK1Grid, decayFactor, defaultGridN]
  · simp only [get_k2_settings, specK2Grid, decayFactor, defaultGridN, hσ2]
  · simp only [get_k3_settings, specK3Grid, decayFactor, defaultGridN, hσ3]
    norm_num

/-- C3 counterexample: with declared element count 2, order set `{2}` and
grid length 1, `get_number_of_features()` returns `2*3/2*1 = 3`, but the
dense output has shape `(2, 2, 1)` whose product is `4`: the
"product of dense shapes with `flatten=false`" clause of the claim is false. -/
theorem C3_counterexample :
    get_number_of_features false true false 2 0 1 0 ≠
      (denseShapesProduct false true false 2 0 1 0 : ℤ) := by
  have hq : get_number_of_features_exact false true false 2 0 1 0 = ((3 : ℕ) : ℚ) := by
    norm_num [get_number_of_features_exact]
  have hd : denseShapesProduct false true false 2 0 1 0 = 4 := by decide
  rw [get_number_of_features, hq, Int.floor_natCast, hd]
  decide

/-- C3 (amended): for every nonempty requested order subset of `{1,2,3}`,
`get_number_of_features()` equals the total length of the flattened vector
returned by `describe()`, with per-order contributions `n_elements*n`
(order 1), `n_elements*(n_elements+1)/2*n` (order 2) and
`n_elements*n_elements*(n_elements+1)/2*n` (order 3); with `flatten=false`
the dense arrays have shapes `(n_elements, n)`, `(n_elements, n_elements,
n)` and `(n_elements, n_elements, n_elements, n)`, whose total entry count
is `n_elements^order * n` per order, not the feature count. -/
theorem C3_amended (has1 has2 has3 : Bool) (nElem n1 n2 n3 : ℕ)
    (_h : has1 = true ∨ has2 = true ∨ has3 = true) :
    get_number_of_features has1 has2 has3 nElem n1 n2 n3 =
        (flattenedLength has1 has2 has3 nElem n1 n2 n3 : ℤ) ∧
      flattenedLength has1 has2 has3 nElem n1 n2 n3 =
        (if has1 then nElem * n1 else 0) +
          ((if has2 then nElem * (nElem + 1) / 2 * n2 else 0) +
            (if has3 then nElem * nElem * (nElem + 1) / 2 * n3 else 0)) ∧
      denseShapesProduct has1 has2 has3 nElem n1 n2 n3 =
        (if has1 then nElem * n1 else 0) +
          ((if has2 then nElem * nElem * n2 else 0) +
            (if has3 then nElem * nElem * nElem * n3 else 0)) := by
  have h2 : (2 : ℕ) ∣ nElem * (nElem + 1) := (Nat.even_mul_succ_self nElem).two_dvd
  have h3 : (2 : ℕ) ∣ nElem * nElem * (nElem + 1) := by
    rw [mul_assoc]
    exact Dvd.dvd.mul_left h2 nElem
  refine ⟨?_, ?_, ?_⟩
  · have hq : get_number_of_features_exact has1 has2 has3 nElem n1 n2 n3 =
        ((flattenedLength has1 has2 has3 nElem n1 n2 n3 : ℕ) : ℚ) := by
      simp only [get_number_of_features_exact, flattenedLength, k1Width, k2Width, k3Width]
      push_cast [cast_half_mul _ n2 h2, cast_half_mul _ n3 h3]
      ring
    rw [get_number_of_features, hq, Int.floor_natCast]
  · simp [flattenedLength, k1Width, k2Width, k3Width]
  · simp only [denseShapesProduct, k1DenseShape, k2DenseShape, k3DenseShape, List.prod_cons,
      List.prod_nil, mul_one]
    ring_nf

/-- Witness for `C3_amended` at a concrete input. -/
theorem C3_amended_witness :
    ((true : Bool) = true ∨ (false : Bool) = true ∨ (false : Bool) = true) ∧
      get_number_of_features true false false 3 4 0 0 =
        (flattenedLength true false false 3 4 0 0 : ℤ) :=
  ⟨Or.inl rfl, (C3_amended true false false 3 4 0 0 (Or.inl rfl)).1⟩

/-- A sequence of checks succeeds only if both parts succeed. -/
theorem seqE_ok {a b : Except PyErr Unit} (h : seqE a b = .ok ()) :
    a = .ok () ∧ b = .ok () := by
  cases a with
  | error e => exact absurd h (by simp [seqE])
  | ok u => exact ⟨rfl, h⟩

/-- Every defective weighting entry makes the periodic check of
mbtr.py lines 226-239 raise. -/
theorem badWeightEntry_periodic_error (weighting : Option Weighting)
    (sel : Weighting → DEntry WeightInfo) (kname : String)
    (hbad : badWeightEntry weighting sel) :
    ∃ e, checkPeriodicEntry weighting sel kname = .error e := by
  rcases hbad with rfl | ⟨wt, rfl, hmiss | hnone | ⟨info, hval, hfn⟩⟩
  · exact ⟨.valueError periodicMsg, rfl⟩
  · exact ⟨.keyError kname, by simp [checkPeriodicEntry, hmiss]⟩
  · exact ⟨.valueError periodicMsg, by simp [checkPeriodicEntry, hnone]⟩
  · exact ⟨.valueError periodicMsg, by simp [checkPeriodicEntry, hval, hfn]⟩

/-- C4: for every configuration with `periodic=true` and some requested
order `k > 1` whose weighting spec is absent, `None`, or has function
`"unity"`, a configuration error is raised at configuration-resolution time:
`update()` (called by the constructor) raises, and `initialize_scalars`
(called at the start of every `describe`) raises again, for every
aggregation collaborator and every prior cache state, so no geometry
aggregation or periodic expansion occurs and no partial result is
returned. -/
theorem C4_periodic_missing_weighting {τ : Type} (k : KSet)
    (weighting : Option Weighting) (declared sysNumbers : List ℕ)
    (agg : ℕ → Bool → τ) (prior : InitState τ)
    (h : (k.has2 = true ∧ badWeightEntry weighting Weighting.k2) ∨
         (k.has3 = true ∧ badWeightEntry weighting Weighting.k3)) :
    (∃ e, updateCheck k true weighting = .error e) ∧
      ∃ e, initialize_scalars agg k true weighting declared sysNumbers prior =
        .error e := by
  have hupd : ∃ e, updateCheck k true weighting = .error e := by
    cases hfull : updateCheck k true weighting with
    | error e => exact ⟨e, rfl⟩
    | ok u =>
      cases u
      exfalso
      unfold updateCheck at hfull
      obtain ⟨-, hstage2⟩ := seqE_ok hfull
      rw [if_pos rfl] at hstage2
      obtain ⟨hp2, hp3⟩ := seqE_ok hstage2
      rcases h with ⟨hk2, hbad⟩ | ⟨hk3, hbad⟩
      · rw [hk2, if_pos rfl] at hp2
        obtain ⟨e, he⟩ := badWeightEntry_periodic_error weighting Weighting.k2 "k2" hbad
        rw [he] at hp2
        exact Except.noConfusion hp2
      · rw [hk3, if_pos rfl] at hp3
        obtain ⟨e, he⟩ := badWeightEntry_periodic_error weighting Weighting.k3 "k3" hbad
        rw [he] at hp3
        exact Except.noConfusion hp3
  obtain ⟨e, he⟩ := hupd
  exact ⟨⟨e, he⟩, ⟨e, by rw [initialize_scalars, he]⟩⟩

/-- Witness for `C4_periodic_missing_weighting`: order set `{2}`, periodic,
no weighting at all. -/
theorem C4_periodic_missing_weighting_witness :
    ((KSet.mk false true false).has2 = true ∧
        badWeightEntry none Weighting.k2) ∧
      ∃ e, updateCheck (KSet.mk false true false) true none = .error e :=
  ⟨⟨rfl, Or.inl rfl⟩,
    (C4_periodic_missing_weighting (τ := Unit) (KSet.mk false true false) none
      [] [] (fun _ _ => ()) ⟨none, none, none⟩ (Or.inl ⟨rfl, Or.inl rfl⟩)).1⟩

/-- C5: for every structure containing an atomic number not in the declared
`atomic_numbers` (and every validly constructed configuration -- the
constructor already ran `update()` successfully), `describe()` raises a
`KeyError` naming an undeclared atomic number present in the structure,
before any geometry aggregation (the error is the same for every aggregation
collaborator) and on every call (the error is the same for every prior cache
state, which lines 375-385 reset unconditionally). -/
theorem C5_unknown_element {τ : Type} (k : KSet) (periodic : Bool)
    (weighting : Option Weighting) (declared sysNumbers : List ℕ)
    (agg : ℕ → Bool → τ) (prior : InitState τ)
    (hok : updateCheck k periodic weighting = .ok ())
    (hunk : ∃ z ∈ sysNumbers, z ∉ declared) :
    ∃ z, initialize_scalars agg k periodic weighting declared sysNumbers prior =
        .error (.unknownElement z) ∧ z ∈ sysNumbers ∧ z ∉ declared := by
  obtain ⟨z, hz, hzd⟩ := hunk
  have hsome : (sysNumbers.dedup.find? (fun t => decide (t ∉ declared))).isSome := by
    rw [List.find?_isSome]
    exact ⟨z, List.mem_dedup.mpr hz, by simpa using hzd⟩
  obtain ⟨z', hz'⟩ := Option.isSome_iff_exists.mp hsome
  refine ⟨z', ?_, ?_, ?_⟩
  · rw [initialize_scalars, hok]
    have : elementCheck declared sysNumbers = .error (.unknownElement z') := by
      rw [elementCheck, hz']
    rw [this]
  · exact List.mem_dedup.mp (List.mem_of_find?_eq_some hz')
  · simpa using List.find?_some hz'

/-- Witness for `C5_unknown_element`: declared `{1}`, structure containing
the undeclared atomic number `2`. -/
theorem C5_unknown_element_witness :
    updateCheck (KSet.mk true false false) false none = .ok () ∧
      (∃ z ∈ [2], z ∉ [1]) ∧
      ∃ z, initialize_scalars (τ := Unit) (fun _ _ => ())
          (KSet.mk true false false) false none [1] [2] ⟨none, none, none⟩ =
          .error (.unknownElement z) ∧ z ∈ [2] ∧ z ∉ [1] :=
  ⟨rfl, ⟨2, by decide, by decide⟩,
    C5_unknown_element (KSet.mk true false false) false none [1] [2]
      (fun _ _ => ()) ⟨none, none, none⟩ rfl ⟨2, by decide, by decide⟩⟩

/-- C7: for every grid `{min, max, sigma, n}` with `min < max` and `n ≥ 2`
and every list of (value, weight) pairs, `gaussian_sum` returns exactly the
length-`n` sequence described by the spec: `n+1` boundary points spaced by
`dx = (max-min)/(n-1)` starting at `min - dx/2`, the weighted
CDF sum `weight * 1/2 * (1 + erf((boundary-value)/(sigma*sqrt 2)))` at each
boundary, consecutive differences divided by `dx`, and, when
`normalize_gaussians` is false, an additional division by
`1/(sigma*sqrt(2*pi))`. -/
theorem C7_gaussian_sum_matches_spec (erf : ℝ → ℝ) (normalizeGaussians : Bool)
    (cw : List (ℝ × ℝ)) (start stop sigma : ℝ) (n : ℕ)
    (_hlt : start < stop) (hn : 2 ≤ n) :
    gaussian_sum erf normalizeGaussians cw start stop sigma n =
      gaussian_sum_spec erf normalizeGaussians cw start stop sigma n := by
  have hc1 : ((n : ℝ) - 1) ≠ 0 := by
    have : (n : ℝ) ≠ 1 := by exact_mod_cast (by omega : n ≠ 1)
    exact sub_ne_zero.mpr this
  have hc0 : ((n : ℝ)) ≠ 0 := by exact_mod_cast (by omega : n ≠ 0)
  have hdx : (stop + (stop - start) / ((n : ℝ) - 1) / 2 -
        (start - (stop - start) / ((n : ℝ) - 1) / 2)) / (n : ℝ) =
      (stop - start) / ((n : ℝ) - 1) := by
    field_simp
    ring
  cases normalizeGaussians with
  | true =>
    simp only [gaussian_sum, gaussian_sum_spec, if_true, hdx]
  | false =>
    simp only [gaussian_sum, gaussian_sum_spec, if_false, hdx, Bool.false_eq_true]
    refine List.map_congr_left fun i _ => ?_
    ring

/-- Witness for `C7_gaussian_sum_matches_spec` at a concrete input. -/
theorem C7_gaussian_sum_matches_spec_witness :
    (0 : ℝ) < 1 ∧ 2 ≤ 2 ∧
      gaussian_sum (fun x => x) false [(0, 1)] 0 1 1 2 =
        gaussian_sum_spec (fun x => x) false [(0, 1)] 0 1 1 2 :=
  ⟨by norm_num, by norm_num,
    C7_gaussian_sum_matches_spec (fun x => x) false [(0, 1)] 0 1 1 2
      (by norm_num) (by norm_num)⟩

/-- C1: the copy-count search of `create_extended_system` evaluates the
weighting function at `c * cell_vector_lengths[0]` for EVERY axis
(mbtr.py line 541, the enumerated `axis_length` is unused), not at `c`
times the axis's own cell-vector length.  For the strictly decreasing
weighting `w(x) = 1/(1+x²)`, cutoff `1/3` and a cell whose vectors have
lengths `(1, 3, 3)`, the code bounds axis 1 with 2 copies while the
specified own-length bound is 1 copy. -/
theorem C1_copy_count_uses_first_axis_length :
    nCopiesAxis wInvSq (1 / 3) 2 cellC1 1 = 2 ∧
      nCopiesAxisSpec wInvSq (1 / 3) 2 cellC1 1 = 1 := by
  have hlen0 : rowLength cellC1 0 = 1 := by
    have h1 : ((sqNorm (cellC1.row 0) : ℚ) : ℝ) = 1 := by
      norm_num [Cell.row, cellC1, sqNorm]
    rw [rowLength, h1, Real.sqrt_one]
  have hlen1 : rowLength cellC1 1 = 3 := by
    have h9 : ((sqNorm (cellC1.row 1) : ℚ) : ℝ) = 9 := by
      norm_num [Cell.row, cellC1, sqNorm]
    rw [rowLength, h9, show (9 : ℝ) = 3 ^ 2 by norm_num,
      Real.sqrt_sq (by norm_num : (0 : ℝ) ≤ 3)]
  constructor
  · unfold nCopiesAxis
    apply natSInf_eq
    · show wInvSq (dblDist 2 ((2 : ℕ) * rowLength cellC1 0)) < 1 / 3
      rw [hlen0]
      norm_num [wInvSq, dblDist]
    · intro m hm
      interval_cases m
      · show ¬ wInvSq (dblDist 2 ((0 : ℕ) * rowLength cellC1 0)) < 1 / 3
        rw [hlen0]
        norm_num [wInvSq, dblDist]
      · show ¬ wInvSq (dblDist 2 ((1 : ℕ) * rowLength cellC1 0)) < 1 / 3
        rw [hlen0]
        norm_num [wInvSq, dblDist]
  · unfold nCopiesAxisSpec
    apply natSInf_eq
    · show wInvSq (dblDist 2 ((1 : ℕ) * rowLength cellC1 1)) < 1 / 3
      rw [hlen1]
      norm_num [wInvSq, dblDist]
    · intro m hm
      interval_cases m
      show ¬ wInvSq (dblDist 2 ((0 : ℕ) * rowLength cellC1 1)) < 1 / 3
      rw [hlen1]
      norm_num [wInvSq, dblDist]

/-- C6 counterexample: re-running `create_extended_system` on its own output
with the same weighting and cutoff is NOT idempotent.  With the strictly
decreasing weighting `w(x) = 1/(1+x²)`, cutoff `1/11`, a cubic cell of side
5 and two atoms at x = 0 and x = 3, the first expansion keeps 4 atoms
(x = 0, 3, 5, -2) and re-expanding those keeps 10: the expansion reaches new
atoms within cutoff range of the previously added frontier atoms. -/
theorem C6_counterexample :
    (create_extended_system wInvSq (1 / 11) 2 cell5
        (create_extended_system wInvSq (1 / 11) 2 cell5 atoms2)).length ≠
      (create_extended_system wInvSq (1 / 11) 2 cell5 atoms2).length := by
  have hb : ∀ atoms, create_extended_system wInvSq (1 / 11) 2 cell5 atoms =
      create_extended_system_q acceptTen 1 1 1 cell5 atoms := fun atoms =>
    create_extended_system_eq_q wInvSq (1 / 11) 2 cell5 atoms acceptTen 1 1 1
      (nCopiesAxis_cell5 0) (nCopiesAxis_cell5 1) (nCopiesAxis_cell5 2)
      acceptTen_spec
  have h1 : create_extended_system_q acceptTen 1 1 1 cell5 atoms2 =
      [(1, (0, 0, 0)), (1, (3, 0, 0)), (1, (5, 0, 0)), (1, (-2, 0, 0))] := by
    norm_num [create_extended_system_q, shiftTriples, shiftRange, shiftVec, vsub, vadd, zsmul,
      sqDist, sqNorm, acceptTen, cell5, atoms2, Cell.row, List.range_succ]
  have h2 : create_extended_system_q acceptTen 1 1 1 cell5
        [((1 : ℕ), ((0 : ℚ), (0 : ℚ), (0 : ℚ))), (1, (3, 0, 0)), (1, (5, 0, 0)),
          (1, (-2, 0, 0))] =
      [(1, (0, 0, 0)), (1, (3, 0, 0)), (1, (5, 0, 0)), (1, (-2, 0, 0)),
        (1, (5, 0, 0)), (1, (8, 0, 0)), (1, (3, 0, 0)),
        (1, (-5, 0, 0)), (1, (-2, 0, 0)), (1, (0, 0, 0))] := by
    norm_num [create_extended_system_q, shiftTriples, shiftRange, shiftVec, vsub, vadd, zsmul,
      sqDist, sqNorm, acceptTen, cell5, Cell.row, List.range_succ]
  rw [hb, hb, h1, h2]
  decide

/-- C6 (amended): `create_extended_system` is not idempotent in general --
re-expansion with the same parameters can add further atoms
(`C6_counterexample`).  It returns the particle set unchanged, and is
therefore idempotent, whenever the per-axis copy-count bounds are all
zero. -/
theorem C6_amended (w : ℝ → ℝ) (cutoff : ℝ) (order : ℕ) (cell : Cell)
    (atoms : List (ℕ × Vec3))
    (h : ∀ axis : Fin 3, nCopiesAxis w cutoff order cell axis = 0) :
    create_extended_system w cutoff order cell atoms = atoms ∧
      create_extended_system w cutoff order cell (create_extended_system w cutoff order cell atoms) =
        create_extended_system w cutoff order cell atoms := by
  have hmain : ∀ ats, create_extended_system w cutoff order cell ats = ats := by
    intro ats
    unfold create_extended_system
    rw [h 0, h 1, h 2]
    have hempty : shiftTriples 0 0 0 = [] := rfl
    dsimp only
    rw [hempty]
    simp
  exact ⟨hmain atoms, by rw [hmain, hmain]⟩

/-- Witness for `C6_amended`: with cutoff 2 the weight is below the cutoff
already at distance 0, so no copies are taken and the expansion is the
identity. -/
theorem C6_amended_witness :
    (∀ axis : Fin 3, nCopiesAxis wInvSq 2 2 cell5 axis = 0) ∧
      create_extended_system wInvSq 2 2 cell5 atoms2 = atoms2 := by
  have h : ∀ axis : Fin 3, nCopiesAxis wInvSq 2 2 cell5 axis = 0 := by
    intro axis
    unfold nCopiesAxis
    apply natSInf_eq
    · show wInvSq (dblDist 2 ((0 : ℕ) * rowLength cell5 0)) < 2
      norm_num [wInvSq, dblDist]
    · intro m hm
      exact absurd hm (Nat.not_lt_zero m)
  exact ⟨h, (C6_amended wInvSq 2 2 cell5 atoms2 h).1⟩

/-- `allPairs` is lexicographically sorted. -/
theorem allPairs_sorted (ne : ℕ) : List.Sorted pairLe (allPairs ne) := by
  unfold allPairs
  rw [List.Sorted, List.pairwise_flatMap]
  constructor
  · intro i _
    rw [List.pairwise_map]
    refine List.Pairwise.imp ?_ ((List.pairwise_lt_range ne).filter _)
    intro a b hab
    exact Or.inr ⟨rfl, le_of_lt hab⟩
  · refine List.Pairwise.imp_of_mem ?_ (List.pairwise_lt_range ne)
    intro i i' _ _ hlt x hx y hy
    obtain ⟨j, _, rfl⟩ := List.mem_map.mp hx
    obtain ⟨j', _, rfl⟩ := List.mem_map.mp hy
    exact Or.inl hlt

/-- `allTriples` is lexicographically sorted. -/
theorem allTriples_sorted (ne : ℕ) : List.Sorted tripLe (allTriples ne) := by
  unfold allTriples
  rw [List.Sorted, List.pairwise_flatMap]
  constructor
  · intro i _
    rw [List.pairwise_map]
    refine List.Pairwise.imp ?_ (allPairs_sorted ne)
    intro a b hab
    exact Or.inr ⟨rfl, hab⟩
  · refine List.Pairwise.imp_of_mem ?_ (List.pairwise_lt_range ne)
    intro i i' _ _ hlt x hx y hy
    obtain ⟨p, _, rfl⟩ := List.mem_map.mp hx
    obtain ⟨p', _, rfl⟩ := List.mem_map.mp hy
    exact Or.inl hlt

/-- `writeSeqOpt` on a list of present entries is `writeSeq`. -/
theorem writeSeqOpt_map_some (n : ℕ) (l : List (List ℚ)) :
    ∀ (v : List ℚ) (start : ℕ),
      writeSeqOpt n v start (l.map some) = writeSeq n v start l := by
  induction l with
  | nil => intro v start; rfl
  | cons s rest ih => intro v start; simp only [List.map_cons, writeSeqOpt, writeSeq, ih]

/-- The enumerate-over-sorted-present-keys layout coincides with the
rank-over-all-combinations layout whenever every combination of the
canonical sorted list `L` is present in the map. -/
theorem flatLayout_eq {α : Type} [BEq α] [LawfulBEq α] (r : α → α → Prop)
    [DecidableRel r] [IsTotal α r] [IsTrans α r] [IsAntisymm α r]
    (L : List α) (hL : List.Sorted r L)
    (broaden : List ℚ → List ℚ → List ℚ) (n width : ℕ)
    (comb : List (α × (List ℚ × List ℚ)))
    (hperm : (comb.map Prod.fst).Perm L) :
    writeSeq n (List.replicate width 0) 0
      ((List.insertionSort r (comb.map Prod.fst)).map (fun key =>
        broaden ((comb.lookup key).getD ([], [])).1
          ((comb.lookup key).getD ([], [])).2)) =
    writeSeqOpt n (List.replicate width 0) 0
      (L.map (fun key => (comb.lookup key).map (fun d => broaden d.1 d.2))) := by
  have hsorted_eq : List.insertionSort r (comb.map Prod.fst) = L :=
    List.eq_of_perm_of_sorted ((List.perm_insertionSort r _).trans hperm)
      (List.sorted_insertionSort r _) hL
  have hlookup : ∀ key ∈ L, ∃ d, comb.lookup key = some d := by
    intro key hk
    have hmem : key ∈ comb.map Prod.fst := hperm.symm.subset hk
    have : (comb.lookup key).isSome = true := by
      rw [List.lookup_isSome_iff]
      obtain ⟨⟨k', d⟩, hkd, rfl⟩ := List.mem_map.mp hmem
      exact ⟨(k', d), hkd, by simp⟩
    exact Option.isSome_iff_exists.mp this
  have hmap : L.map (fun key => (comb.lookup key).map (fun d => broaden d.1 d.2)) =
      (L.map (fun key =>
        broaden ((comb.lookup key).getD ([], [])).1
          ((comb.lookup key).getD ([], [])).2)).map some := by
    rw [List.map_map]
    refine List.map_congr_left fun key hk => ?_
    obtain ⟨d, hd⟩ := hlookup key hk
    simp [hd]
  rw [hsorted_eq, hmap, writeSeqOpt_map_some]

/-- C2 counterexample: with two declared elements and grid length 1, a
combination map containing only the pair `(1, 1)` is written by `K2` at
columns `[0, 1)` (its enumeration index among the PRESENT keys is 0), while
the claim places it at columns `[2, 3)` (its rank among all non-decreasing
pairs is 2): the flattened layout depends on which other combinations are
present. -/
theorem C2_counterexample :
    K2flat (fun _ _ => [1]) 2 1 [((1, 1), ([5], [1]))] ≠
      K2flatSpec (fun _ _ => [1]) 2 1 [((1, 1), ([5], [1]))] := by
  decide

/-- C2 (amended): for every flattened order-2 and order-3 output, each
combination's broadened sequence is written at columns `[m*n, (m+1)*n)`
where `m` is the combination's enumeration index in the ascending sort of
the combinations PRESENT in the map; when every combination is present this
coincides with the rank under ascending lexicographic order over all tuples
(pairs `i ≤ j` for order 2; triples with free leading index and
non-decreasing trailing pair for order 3). -/
theorem C2_flattened_layout (broaden : List ℚ → List ℚ → List ℚ) (nElem n : ℕ)
    (comb2 : List ((ℕ × ℕ) × (List ℚ × List ℚ)))
    (comb3 : List ((ℕ × ℕ × ℕ) × (List ℚ × List ℚ)))
    (h2 : (comb2.map Prod.fst).Perm (allPairs nElem))
    (h3 : (comb3.map Prod.fst).Perm (allTriples nElem)) :
    K2flat broaden nElem n comb2 = K2flatSpec broaden nElem n comb2 ∧
      K3flat broaden nElem n comb3 = K3flatSpec broaden nElem n comb3 := by
  constructor
  · unfold K2flat K2flatSpec
    dsimp only
    exact flatLayout_eq pairLe (allPairs nElem) (allPairs_sorted nElem) broaden n
      (k2Width nElem n) comb2 h2
  · unfold K3flat K3flatSpec
    dsimp only
    exact flatLayout_eq tripLe (allTriples nElem) (allTriples_sorted nElem) broaden n
      (k3Width nElem n) comb3 h3

/-- Witness for `C2_flattened_layout`: one declared element, every
combination present. -/
theorem C2_flattened_layout_witness :
    (([((0, 0), ([(2 : ℚ)], [(3 : ℚ)]))].map Prod.fst).Perm (allPairs 1)) ∧
      (([((0, 0, 0), ([(2 : ℚ)], [(3 : ℚ)]))].map Prod.fst).Perm (allTriples 1)) ∧
      K2flat (fun a _ => a) 1 1 [((0, 0), ([2], [3]))] =
        K2flatSpec (fun a _ => a) 1 1 [((0, 0), ([2], [3]))] :=
  ⟨by decide, by decide,
    (C2_flattened_layout (fun a _ => a) 1 1 [((0, 0), ([2], [3]))]
      [((0, 0, 0), ([2], [3]))] (by decide) (by decide)).1⟩

/-- `sortedIndices` is a permutation of the row indices. -/
theorem sortedIndices_perm {m : ℕ} (M : Fin m → Fin m → ℝ) :
    (sortedIndices M).Perm (List.finRange m) := by
  unfold sortedIndices
  exact (List.reverse_perm _).trans (List.perm_insertionSort _ _)

/-- `sortedIndices` has no duplicates. -/
theorem sortedIndices_nodup {m : ℕ} (M : Fin m → Fin m → ℝ) :
    (sortedIndices M).Nodup :=
  ((sortedIndices_perm M).nodup_iff).mpr (List.nodup_finRange m)

/-- The length of `sortedIndices` is the particle count. -/
theorem sortedIndices_length {m : ℕ} (M : Fin m → Fin m → ℝ) :
    (sortedIndices M).length = m := by
  simp [sortedIndices, (List.perm_insertionSort _ _).length_eq]

/-- The sorting permutation is injective. -/
theorem sortIdx_injective {m : ℕ} (M : Fin m → Fin m → ℝ) :
    Function.Injective (sortIdx M) := by
  intro a b hab
  unfold sortIdx at hab
  have hinj := List.nodup_iff_injective_get.mp (sortedIndices_nodup M)
  have h2 := hinj hab
  have h3 := congrArg Fin.val h2
  exact Fin.ext h3

/-- The sorting permutation is bijective. -/
theorem sortIdx_bijective {m : ℕ} (M : Fin m → Fin m → ℝ) :
    Function.Bijective (sortIdx M) :=
  Finite.injective_iff_bijective.mp (sortIdx_injective M)

/-- Row norms are non-negative. -/
theorem rowNormF_nonneg {m : ℕ} (M : Fin m → Fin m → ℝ) (i : Fin m) :
    0 ≤ rowNormF M i := Real.sqrt_nonneg _

/-- The row norms along the sorting permutation are descending. -/
theorem sortIdx_norm_antitone {m : ℕ} (M : Fin m → Fin m → ℝ) :
    ∀ a b : Fin m, a ≤ b →
      rowNormF M (sortIdx M b) ≤ rowNormF M (sortIdx M a) := by
  haveI h1 : IsTotal (Fin m) (fun a b => rowNormF M a ≤ rowNormF M b) :=
    ⟨fun a b => le_total _ _⟩
  haveI h2 : IsTrans (Fin m) (fun a b => rowNormF M a ≤ rowNormF M b) :=
    ⟨fun _ _ _ hab hbc => le_trans hab hbc⟩
  have hpw : (sortedIndices M).Pairwise
      (fun x y => rowNormF M y ≤ rowNormF M x) := by
    unfold sortedIndices
    rw [List.pairwise_reverse]
    exact List.sorted_insertionSort _ _
  intro a b hab
  rcases eq_or_lt_of_le hab with rfl | hlt
  · exact le_refl _
  · unfold sortIdx
    exact List.pairwise_iff_get.mp hpw _ _ hlt

/-- Summing a padded family over the padded index range equals summing the
original family. -/
theorem sum_fin_pad {m nmax : ℕ} (h : m ≤ nmax) (f : Fin m → ℝ) :
    (∑ j : Fin nmax, if hj : (j : ℕ) < m then f ⟨j, hj⟩ else 0) =
      ∑ j : Fin m, f j := by
  have e1 := Fin.sum_univ_eq_sum_range (fun t => if ht : t < m then f ⟨t, ht⟩ else 0) nmax
  have e2 := Fin.sum_univ_eq_sum_range (fun t => if ht : t < m then f ⟨t, ht⟩ else 0) m
  rw [e1, ← Finset.sum_subset (Finset.range_subset.mpr h)
    (fun x _ hnx => dif_neg (by simpa using hnx)), ← e2]
  exact Finset.sum_congr rfl fun j _ => dif_pos j.isLt

/-- Row norms are invariant under applying the same bijection to rows and
columns. -/
theorem rowNormF_comp_perm {m : ℕ} (M : Fin m → Fin m → ℝ) (σ : Fin m → Fin m)
    (hσ : Function.Bijective σ) (i : Fin m) :
    rowNormF (fun a b => M (σ a) (σ b)) i = rowNormF M (σ i) := by
  unfold rowNormF
  congr 1
  exact hσ.sum_comp (fun j => (M (σ i) j) ^ 2)

/-- A padded row inside the original range has the norm of the corresponding
sorted row. -/
theorem rowNormF_sortAndPad_lt {m nmax : ℕ} (hmn : m ≤ nmax)
    (M : Fin m → Fin m → ℝ) (i : Fin nmax) (hi : (i : ℕ) < m) :
    rowNormF (sortAndPad nmax M) i = rowNormF M (sortIdx M ⟨i, hi⟩) := by
  have step1 : ∀ j : Fin nmax, (sortAndPad nmax M i j) ^ 2 =
      (if hj : (j : ℕ) < m then
        (fun jm => (M (sortIdx M ⟨i, hi⟩) (sortIdx M jm)) ^ 2) ⟨j, hj⟩
      else 0) := by
    intro j
    unfold sortAndPad
    by_cases hj : (j : ℕ) < m
    · rw [dif_pos ⟨hi, hj⟩, dif_pos hj]
    · rw [dif_neg (by tauto), dif_neg hj]
      norm_num
  unfold rowNormF
  rw [Finset.sum_congr rfl (fun j _ => step1 j),
    sum_fin_pad hmn (fun jm => (M (sortIdx M ⟨i, hi⟩) (sortIdx M jm)) ^ 2)]
  congr 1
  exact (sortIdx_bijective M).sum_comp (fun j => (M (sortIdx M ⟨i, hi⟩) j) ^ 2)

/-- A padding row (outside the original range) has norm zero. -/
theorem rowNormF_sortAndPad_zero {m nmax : ℕ} (M : Fin m → Fin m → ℝ)
    (i : Fin nmax) (hi : m ≤ (i : ℕ)) :
    rowNormF (sortAndPad nmax M) i = 0 := by
  unfold rowNormF
  have step : ∀ j : Fin nmax, (sortAndPad nmax M i j) ^ 2 = 0 := by
    intro j
    unfold sortAndPad
    rw [dif_neg (fun hc => absurd hc.1 (not_lt.mpr hi))]
    norm_num
  rw [Finset.sum_congr rfl (fun j _ => step j), Finset.sum_const_zero,
    Real.sqrt_zero]

/-- The row norms of a sorted-and-padded matrix are descending. -/
theorem sortAndPad_rowNorms_antitone {m nmax : ℕ} (hmn : m ≤ nmax)
    (M : Fin m → Fin m → ℝ) :
    ∀ i j : Fin nmax, i ≤ j →
      rowNormF (sortAndPad nmax M) j ≤ rowNormF (sortAndPad nmax M) i := by
  intro i j hij
  by_cases hj : (j : ℕ) < m
  · have hi : (i : ℕ) < m := lt_of_le_of_lt hij hj
    rw [rowNormF_sortAndPad_lt hmn M i hi, rowNormF_sortAndPad_lt hmn M j hj]
    exact sortIdx_norm_antitone M ⟨i, hi⟩ ⟨j, hj⟩ hij
  · rw [rowNormF_sortAndPad_zero M j (not_lt.mp hj)]
    exact rowNormF_nonneg _ _

/-- Sorting and padding preserve symmetry. -/
theorem sortAndPad_symm {m nmax : ℕ} (M : Fin m → Fin m → ℝ)
    (hM : ∀ i j, M i j = M j i) (i j : Fin nmax) :
    sortAndPad nmax M i j = sortAndPad nmax M j i := by
  unfold sortAndPad
  by_cases h1 : (i : ℕ) < m
  · by_cases h2 : (j : ℕ) < m
    · rw [dif_pos ⟨h1, h2⟩, dif_pos ⟨h2, h1⟩]
      exact hM _ _
    · rw [dif_neg (by tauto), dif_neg (by tauto)]
  · rw [dif_neg (by tauto), dif_neg (by tauto)]

/-- The flattened matrix has `N^2` entries. -/
theorem flattenMat_length {N : ℕ} (M : Fin N → Fin N → ℝ) :
    (flattenMat M).length = N ^ 2 := by
  unfold flattenMat
  rw [List.length_flatMap]
  have : (List.map (List.length ∘ fun i => (List.finRange N).map (M i))
      (List.finRange N)) = List.replicate N N := by
    rw [show (List.length ∘ fun i => (List.finRange N).map (M i)) =
        Function.const (Fin N) N from funext fun i => by
          simp [List.length_finRange], List.map_const, List.length_finRange]
  rw [this, List.sum_replicate, smul_eq_mul, sq]

/-- The Coulomb interaction matrix is symmetric when the inverse-distance
matrix is. -/
theorem coulombBase_symm {m : ℕ} (q : Fin m → ℝ) (idmat : Fin m → Fin m → ℝ)
    (hid : ∀ i j, idmat i j = idmat j i) (i j : Fin m) :
    coulombBase q idmat i j = coulombBase q idmat j i := by
  unfold coulombBase
  by_cases h : i = j
  · subst h; rfl
  · rw [if_neg h, if_neg (Ne.symm h), hid]
    ring

/-- `phi` is symmetric when the displacement tensor is odd under index
swap (`sin` is odd and enters squared). -/
theorem sinePhi_symm {m : ℕ} (B Binv : Fin 3 → Fin 3 → ℝ)
    (D : Fin m → Fin m → Fin 3 → ℝ) (hD : ∀ i j t, D j i t = -(D i j t))
    (i j : Fin m) : sinePhi B Binv D i j = sinePhi B Binv D j i := by
  have harg : ∀ l : Fin 3,
      Real.sin (Real.pi * ∑ t, D j i t * Binv t l) ^ 2 =
        Real.sin (Real.pi * ∑ t, D i j t * Binv t l) ^ 2 := by
    intro l
    have hsum : (∑ t, D j i t * Binv t l) = -(∑ t, D i j t * Binv t l) := by
      rw [← Finset.sum_neg_distrib]
      apply Finset.sum_congr rfl
      intro t _
      rw [hD i j t, neg_mul]
    rw [hsum, mul_neg, Real.sin_neg, neg_sq]
  unfold sinePhi
  apply congrArg Real.sqrt
  refine Finset.sum_congr rfl fun k _ => ?_
  apply congrArg (fun x : ℝ => x ^ 2)
  exact Finset.sum_congr rfl fun l _ => by rw [harg l]

/-- The Sine interaction matrix is symmetric when the displacement tensor is
odd under index swap. -/
theorem sineBase_symm {m : ℕ} (q : Fin m → ℝ) (B Binv : Fin 3 → Fin 3 → ℝ)
    (D : Fin m → Fin m → Fin 3 → ℝ) (hD : ∀ i j t, D j i t = -(D i j t))
    (i j : Fin m) : sineBase q B Binv D i j = sineBase q B Binv D j i := by
  unfold sineBase
  by_cases h : i = j
  · subst h; rfl
  · rw [if_neg h, if_neg (Ne.symm h), sinePhi_symm B Binv D hD]
    ring

/-- C9: for every input system with `m ≤ n_atoms_max` particles, the
matrices returned by `SortedCoulombMatrix.describe` and
`SortedSineMatrix.describe` are `n_atoms_max × n_atoms_max` with rows of
monotonically descending Euclidean norm (zero rows pad the tail), the
flattened vectors have `n_atoms_max^2` entries, and both descriptors'
`get_number_of_features()` returns `n_atoms_max^2`. -/
theorem C9_sorted_padded_matrices {m nmax : ℕ} (hmn : m ≤ nmax)
    (q : Fin m → ℝ) (idmat : Fin m → Fin m → ℝ)
    (B Binv : Fin 3 → Fin 3 → ℝ) (D : Fin m → Fin m → Fin 3 → ℝ) :
    (∀ i j : Fin nmax, i ≤ j →
        rowNormF (coulomb_matrix nmax q idmat) j ≤
          rowNormF (coulomb_matrix nmax q idmat) i) ∧
      (flattenMat (coulomb_matrix nmax q idmat)).length = nmax ^ 2 ∧
      (∀ i j : Fin nmax, i ≤ j →
        rowNormF (sine_matrix nmax q B Binv D) j ≤
          rowNormF (sine_matrix nmax q B Binv D) i) ∧
      (flattenMat (sine_matrix nmax q B Binv D)).length = nmax ^ 2 ∧
      matNumberOfFeatures nmax = nmax ^ 2 :=
  ⟨sortAndPad_rowNorms_antitone hmn _, flattenMat_length _,
    sortAndPad_rowNorms_antitone hmn _, flattenMat_length _, rfl⟩

/-- Witness for `C9_sorted_padded_matrices` at a concrete input (an empty
system padded to 1). -/
theorem C9_sorted_padded_matrices_witness :
    0 ≤ 1 ∧ matNumberOfFeatures 1 = 1 ^ 2 :=
  ⟨by decide,
    (C9_sorted_padded_matrices (by decide : 0 ≤ 1) (fun i => i.elim0)
      (fun i _ => i.elim0) (fun _ _ => 0) (fun _ _ => 0)
      (fun i _ _ => i.elim0)).2.2.2.2⟩

/-- C10: when the inverse-distance matrix is symmetric (Coulomb) or the
displacement tensor is odd under index swap (Sine), the unflattened padded
matrices returned by both descriptors are symmetric: the interaction matrix
is symmetric by construction, rows and columns are permuted by the same
permutation, and zero padding preserves symmetry. -/
theorem C10_symmetric_output {m nmax : ℕ} (q : Fin m → ℝ)
    (idmat : Fin m → Fin m → ℝ) (B Binv : Fin 3 → Fin 3 → ℝ)
    (D : Fin m → Fin m → Fin 3 → ℝ)
    (hid : ∀ i j, idmat i j = idmat j i)
    (hD : ∀ i j t, D j i t = -(D i j t)) :
    (∀ i j : Fin nmax,
        coulomb_matrix nmax q idmat i j = coulomb_matrix nmax q idmat j i) ∧
      ∀ i j : Fin nmax,
        sine_matrix nmax q B Binv D i j = sine_matrix nmax q B Binv D j i :=
  ⟨fun i j => sortAndPad_symm _ (coulombBase_symm q idmat hid) i j,
    fun i j => sortAndPad_symm _ (sineBase_symm q B Binv D hD) i j⟩

/-- Witness for `C10_symmetric_output` at a concrete input. -/
theorem C10_symmetric_output_witness :
    (∀ i j : Fin 1, ((fun _ _ => (1 : ℝ)) : Fin 1 → Fin 1 → ℝ) i j =
        ((fun _ _ => (1 : ℝ)) : Fin 1 → Fin 1 → ℝ) j i) ∧
      (∀ i j : Fin 1, ∀ t : Fin 3,
        ((fun _ _ _ => (0 : ℝ)) : Fin 1 → Fin 1 → Fin 3 → ℝ) j i t =
          -(((fun _ _ _ => (0 : ℝ)) : Fin 1 → Fin 1 → Fin 3 → ℝ) i j t)) ∧
      ∀ i j : Fin 2,
        coulomb_matrix 2 (fun _ : Fin 1 => (1 : ℝ)) (fun _ _ => 1) i j =
          coulomb_matrix 2 (fun _ : Fin 1 => (1 : ℝ)) (fun _ _ => 1) j i :=
  ⟨fun _ _ => rfl, fun _ _ _ => by norm_num,
    (C10_symmetric_output (fun _ : Fin 1 => (1 : ℝ)) (fun _ _ => 1)
      (fun _ _ => 0) (fun _ _ => 0) (fun _ _ _ => 0)
      (fun _ _ => rfl) (fun _ _ _ => by norm_num)).1⟩

end MBTR
